import Mathlib

/-!
Verification development for the Stratz-Scraper repository.

The definitions below are shallow embeddings of the code of this repository:

* `Stratz.App` — the SQLite web application `app.py` (the `/task`, `/submit`
  and `/seed` endpoints and their tables).
* `Stratz.Pg` — the Postgres lease reaper
  `stratz_scraper/database.py::release_incomplete_assignments` and the legacy
  SQLite helper `database.py::release_incomplete_assignments`.
* `Stratz.Worker` — the client worker loop `stratz_scraper/client/worker.py`:
  the rate-limit handler, `_parse_retry_after`, `_discover_matches`, and a
  small-step model of the control flow of `worker_entry`.
* `Stratz.Pool` — the prefetch pool `stratz_scraper/web/task_pool.py`.

Machine integers are modelled as `Int` (SQLite/Postgres integers and Python
ints are unbounded in the relevant ranges); timestamps are integer epoch
seconds or milliseconds; Python floats in `_parse_retry_after` are modelled
as exact rationals together with an explicit finiteness flag.  Concurrency is
modelled as interleavings of the atomic steps the code actually performs
(each SQL statement is one atomic state transition; each loop iteration of
the worker reads its inputs from an environment record).
-/

namespace Stratz

/-! ### app.py: the players table and the /task endpoint

`app.py` creates `players (id INTEGER PRIMARY KEY, assigned_to TEXT,
assigned_at INTEGER, done INTEGER DEFAULT 0)`.  A row is modelled verbatim;
`done` is the 0/1 flag as a `Bool`.  The table is a list of rows; the
`PRIMARY KEY` uniqueness is the `idsNodup` predicate. -/

structure PlayerRow where
  id : Int
  assigned_to : Option String
  assigned_at : Option Int
  done : Bool
deriving DecidableEq

/-- Column list of the `players` table as `app.py` creates it. -/
def appPlayersColumns : List String := ["id", "assigned_to", "assigned_at", "done"]

/-- The `WHERE done=0 AND assigned_to IS NULL` predicate of the `/task` update. -/
def eligibleRow (r : PlayerRow) : Bool := !r.done && r.assigned_to.isNone

/-- Effect of `SET assigned_to=browser, assigned_at=strftime(...)` on the row
selected by id `x`. -/
def setLease (now x : Int) (r : PlayerRow) : PlayerRow :=
  if r.id == x then { r with assigned_to := some "browser", assigned_at := some now } else r

/-- The `/task` endpoint: one atomic conditional `UPDATE ... RETURNING id`.
The inner `SELECT ... LIMIT 1` has no `ORDER BY`, so SQLite picks an
unspecified eligible row; the model picks the first one in table order (the
claims proved about this operation do not depend on which eligible row is
picked).  `now` is the strftime epoch-seconds value. -/
def claimTask (now : Int) (db : List PlayerRow) : Option Int × List PlayerRow :=
  match db.find? eligibleRow with
  | none => (none, db)
  | some r => (some r.id, db.map (setLease now r.id))

/-- Lease holder of the row with id `x` (none when the row is absent). -/
def assignedOf (db : List PlayerRow) (x : Int) : Option String :=
  match db.find? (fun r => r.id == x) with
  | some r => r.assigned_to
  | none => none

/-- `id` is declared `INTEGER PRIMARY KEY`, so ids are pairwise distinct. -/
def idsNodup (db : List PlayerRow) : Prop := (db.map PlayerRow.id).Nodup

/-! ### app.py: the HERO mapping, hero_stats, best, and the /submit endpoint -/

/-- The `HEROES_JSON` table of `app.py`, id to localized name. -/
def HEROES : List (Int × String) :=
  [(1, "Anti-Mage"), (2, "Axe"), (3, "Bane"), (4, "Bloodseeker"),
   (5, "Crystal Maiden"), (6, "Drow Ranger"), (7, "Earthshaker"),
   (8, "Juggernaut"), (9, "Mirana"), (10, "Morphling"), (11, "Shadow Fiend"),
   (12, "Phantom Lancer"), (13, "Puck"), (14, "Pudge"), (15, "Razor"),
   (16, "Sand King"), (17, "Storm Spirit"), (18, "Sven"), (19, "Tiny"),
   (20, "Vengeful Spirit"), (21, "Windranger"), (22, "Zeus"), (23, "Kunkka"),
   (25, "Lina"), (26, "Lion"), (27, "Shadow Shaman"), (28, "Slardar"),
   (29, "Tidehunter"), (30, "Witch Doctor"), (31, "Lich"), (32, "Riki"),
   (33, "Enigma"), (34, "Tinker"), (35, "Sniper"), (36, "Necrophos"),
   (37, "Warlock"), (38, "Beastmaster"), (39, "Queen of Pain"),
   (40, "Venomancer"), (41, "Faceless Void"), (42, "Wraith King"),
   (43, "Death Prophet"), (44, "Phantom Assassin"), (45, "Pugna"),
   (46, "Templar Assassin"), (47, "Viper"), (48, "Luna"),
   (49, "Dragon Knight"), (50, "Dazzle"), (51, "Clockwerk"), (52, "Leshrac"),
   (53, "Nature\x27s Prophet"), (54, "Lifestealer"), (55, "Dark Seer"),
   (56, "Clinkz"), (57, "Omniknight"), (58, "Enchantress"), (59, "Huskar"),
   (60, "Night Stalker"), (61, "Broodmother"), (62, "Bounty Hunter"),
   (63, "Weaver"), (64, "Jakiro"), (65, "Batrider"), (66, "Chen"),
   (67, "Spectre"), (68, "Ancient Apparition"), (69, "Doom"), (70, "Ursa"),
   (71, "Spirit Breaker"), (72, "Gyrocopter"), (73, "Alchemist"),
   (74, "Invoker"), (75, "Silencer"), (76, "Outworld Destroyer"),
   (77, "Lycan"), (78, "Brewmaster"), (79, "Shadow Demon"), (80, "Lone Druid"),
   (81, "Chaos Knight"), (82, "Meepo"), (83, "Treant Protector"),
   (84, "Ogre Magi"), (85, "Undying"), (86, "Rubick"), (87, "Disruptor"),
   (88, "Nyx Assassin"), (89, "Naga Siren"), (90, "Keeper of the Light"),
   (91, "Io"), (92, "Visage"), (93, "Slark"), (94, "Medusa"),
   (95, "Troll Warlord"), (96, "Centaur Warrunner"), (97, "Magnus"),
   (98, "Timbersaw"), (99, "Bristleback"), (100, "Tusk"),
   (101, "Skywrath Mage"), (102, "Abaddon"), (103, "Elder Titan"),
   (104, "Legion Commander"), (105, "Techies"), (106, "Ember Spirit"),
   (107, "Earth Spirit"), (108, "Underlord"), (109, "Terrorblade"),
   (110, "Phoenix"), (111, "Oracle"), (112, "Winter Wyvern"),
   (113, "Arc Warden"), (114, "Monkey King"), (119, "Dark Willow"),
   (120, "Pangolier"), (121, "Grimstroke"), (123, "Hoodwink"),
   (126, "Void Spirit"), (128, "Snapfire"), (129, "Mars"),
   (131, "Ringmaster"), (135, "Dawnbreaker"), (136, "Marci"),
   (137, "Primal Beast"), (138, "Muerta"), (145, "Kez")]

/-- `HEROES.get(hid)` of `app.py`. -/
def heroName (hid : Int) : Option String := HEROES.lookup hid

/-- One entry of the submitted `heroes` JSON list (`hero_id`, `games`, `wins`),
after the `int(...)` conversions of the endpoint. -/
structure HeroEntry where
  hero_id : Int
  games : Int
  wins : Int
deriving DecidableEq

/-- A row of the `hero_stats` table, `PRIMARY KEY (player_id, hero_id)`. -/
structure StatRow where
  player_id : Int
  hero_id : Int
  hero_name : String
  «matches» : Int
  wins : Int
deriving DecidableEq

/-- A row of the `best` table, `hero_id INTEGER PRIMARY KEY`. -/
structure BestRow where
  hero_id : Int
  hero_name : String
  player_id : Int
  «matches» : Int
  wins : Int
deriving DecidableEq

/-- The whole database state of `app.py`. -/
structure AppDb where
  players : List PlayerRow
  heroStats : List StatRow
  best : List BestRow
deriving DecidableEq

/-- The `/submit` response body, `jsonify({"status":"ok"})`: a bare status
string.  The endpoint returns no other key (in particular no task). -/
structure SubmitResponse where
  status : String
deriving DecidableEq

/-- `INSERT INTO hero_stats ... ON CONFLICT(player_id, hero_id) DO UPDATE SET
matches=excluded.matches, wins=excluded.wins` on the association list (the
conflicting row, unique by primary key, is updated in place; otherwise the
row is inserted). -/
def upsertStat (pid hid : Int) (name : String) (m w : Int) :
    List StatRow → List StatRow
  | [] => [⟨pid, hid, name, m, w⟩]
  | r :: rest =>
    if r.player_id == pid && r.hero_id == hid then
      { r with «matches» := m, wins := w } :: rest
    else r :: upsertStat pid hid name m w rest

/-- `INSERT INTO best ... ON CONFLICT(hero_id) DO UPDATE SET
matches=excluded.matches, wins=excluded.wins, player_id=excluded.player_id
WHERE excluded.matches > best.matches` (note: `hero_name` is not in the
`SET` list, and the update fires only when the new `matches` is strictly
greater). -/
def upsertBest (hid : Int) (name : String) (pid m w : Int) :
    List BestRow → List BestRow
  | [] => [⟨hid, name, pid, m, w⟩]
  | r :: rest =>
    if r.hero_id == hid then
      (if r.«matches» < m then
        { r with player_id := pid, «matches» := m, wins := w } :: rest
       else r :: rest)
    else r :: upsertBest hid name pid m w rest

/-- One iteration of the `for h in heroes` loop of `/submit`: look the hero up
in `HEROES` (`if not name: continue` skips unknown ids and falsy names), then
upsert `hero_stats` and conditionally upsert `best`. -/
def submitHero (pid : Int) (st : AppDb) (h : HeroEntry) : AppDb :=
  match heroName h.hero_id with
  | none => st
  | some name =>
    if name = "" then st
    else
      { st with
        heroStats := upsertStat pid h.hero_id name h.games h.wins st.heroStats,
        best := upsertBest h.hero_id name pid h.games h.wins st.best }

/-- `UPDATE players SET done=1 WHERE id=?`. -/
def markDone (pid : Int) (db : List PlayerRow) : List PlayerRow :=
  db.map (fun r => if r.id == pid then { r with done := true } else r)

/-- The `/submit` endpoint of `app.py`: process every hero, mark the player
done, and answer `{"status":"ok"}`.  Note it neither clears
`assigned_to`/`assigned_at` nor returns a follow-up task. -/
def submitCall (st : AppDb) (pid : Int) (heroes : List HeroEntry) :
    AppDb × SubmitResponse :=
  let st1 := heroes.foldl (submitHero pid) st
  ({ st1 with players := markDone pid st1.players }, ⟨"ok"⟩)

/-- First `matches` value stored in `best` for the given hero id. -/
def bestMatches : List BestRow → Int → Option Int
  | [], _ => none
  | r :: rest, hid => if r.hero_id == hid then some r.«matches» else bestMatches rest hid

/-- Database part of a `/submit` call, for chaining sequences of calls. -/
def submitDb (st : AppDb) (c : Int × List HeroEntry) : AppDb :=
  (submitCall st c.1 c.2).1

/-- A sequence of `/submit` calls, applied in order. -/
def runSubmits (st : AppDb) (calls : List (Int × List HeroEntry)) : AppDb :=
  calls.foldl submitDb st

/-- Last entry of the submitted list with the given hero id (later list
entries overwrite earlier ones in the loop of the endpoint). -/
def lastFor (hs : List HeroEntry) (hid : Int) : Option HeroEntry :=
  hs.foldl (fun acc h => if h.hero_id == hid then some h else acc) none

/-- Whether `/submit` accepts the hero id: `HEROES.get(hid)` must be truthy. -/
def heroNameOk (hid : Int) : Bool :=
  match heroName hid with
  | none => false
  | some n => !(n == "")

/-- (matches, wins) stored in `hero_stats` for the given key. -/
def statLookup : List StatRow → Int → Int → Option (Int × Int)
  | [], _, _ => none
  | r :: rest, pid, hid =>
    if r.player_id == pid && r.hero_id == hid then some (r.«matches», r.wins)
    else statLookup rest pid hid

/-! ### app.py: the /seed endpoint -/

/-- `SELECT` test used by `INSERT OR IGNORE`: is the id already present? -/
def presentId (db : List PlayerRow) (pid : Int) : Bool :=
  db.any (fun r => r.id == pid)

/-- `INSERT OR IGNORE INTO players (id) VALUES (?)`: all other columns take
their defaults (`assigned_to`/`assigned_at` NULL, `done` 0); an existing row
is left untouched. -/
def insertOrIgnore (db : List PlayerRow) (pid : Int) : List PlayerRow :=
  if presentId db pid then db else db ++ [⟨pid, none, none, false⟩]

/-- `range(start, end+1)` as a list of integers. -/
def seedRange (s e : Int) : List Int :=
  (List.range (e + 1 - s).toNat).map (fun (i : Nat) => s + (i : Int))

/-- Loop body of the `/seed` endpoint. -/
def seedCall (db : List PlayerRow) (s e : Int) : List PlayerRow :=
  (seedRange s e).foldl insertOrIgnore db

/-! ### Lease reapers

`stratz_scraper/database.py::release_incomplete_assignments(max_age_minutes)`
runs one `UPDATE players SET assigned_to=NULL, assigned_at=NULL WHERE
assigned_to IS NOT NULL AND (assigned_at IS NULL OR assigned_at <= NOW() -
interval)` and returns the affected row count.  The legacy
`database.py::release_incomplete_assignments()` has no age window: it clears
every row with `assigned_to IS NOT NULL`.  Timestamps are epoch seconds. -/

/-- A row of the Postgres `players` table of `stratz_scraper/database.py`. -/
structure PgRow where
  steamAccountId : Int
  depth : Option Int
  assigned_to : Option String
  assigned_at : Option Int
  hero_refreshed_at : Option Int
  hero_done : Bool
  discover_done : Bool
  seen_count : Int
deriving DecidableEq

/-- The reaper `WHERE` predicate: leased, and the lease timestamp is
missing or at least `maxAgeSec` seconds old. -/
def staleRow (maxAgeSec now : Int) (r : PgRow) : Bool :=
  match r.assigned_to, r.assigned_at with
  | none, _ => false
  | some _, none => true
  | some _, some t => decide (t ≤ now - maxAgeSec)

/-- Effect of the reaper `SET` clause on one row. -/
def clearStale (maxAgeSec now : Int) (r : PgRow) : PgRow :=
  if staleRow maxAgeSec now r then { r with assigned_to := none, assigned_at := none } else r

/-- `release_incomplete_assignments(max_age_minutes)`: the updated table and
the returned `rowcount`. -/
def releaseIncompleteAssignments (maxAgeMinutes now : Int) (rows : List PgRow) :
    List PgRow × Nat :=
  (rows.map (clearStale (60 * maxAgeMinutes) now),
   (rows.filter (staleRow (60 * maxAgeMinutes) now)).length)

/-- A row of the legacy SQLite `players` table of `database.py`. -/
structure LegacyRow where
  steamAccountId : Int
  depth : Option Int
  assigned_to : Option String
  assigned_at : Option Int
  hero_done : Bool
  discover_done : Bool
deriving DecidableEq

/-- Legacy `database.py::release_incomplete_assignments`: clears every
outstanding assignment, with no staleness window at all. -/
def releaseIncompleteLegacy (rows : List LegacyRow) : List LegacyRow :=
  rows.map (fun r =>
    if r.assigned_to.isSome then { r with assigned_to := none, assigned_at := none } else r)

/-! ### worker.py: backoff constants and the rate-limit handler -/

/-- `MAX_BACKOFF_MS = DAY_IN_MS` (24 hours in milliseconds). -/
def MAX_BACKOFF_MS : Int := 86400000

/-- `INITIAL_BACKOFF_MS`. -/
def INITIAL_BACKOFF_MS : Int := 1000

/-- `wait_ms = max(0, min(int(wait_ms), MAX_BACKOFF_MS))`. -/
def clampWait (w : Int) : Int := max 0 (min w MAX_BACKOFF_MS)

/-- `min(int(math.ceil(max(backoff_ms, 1000) * 1.2)), MAX_BACKOFF_MS)`: the
no-hint growth step.  For the integer backoff values the loop produces
(0 ≤ b ≤ MAX_BACKOFF_MS), `math.ceil(b * 1.2)` equals the exact rational
ceiling `⌈6b/5⌉ = (6b+4)/5`, which is what is used here. -/
def growBackoff (b : Int) : Int :=
  min ((6 * max b 1000 + 4) / 5) MAX_BACKOFF_MS

/-- The `except RateLimitError` handler of `worker_entry` (worker.py lines
682-700): compute the wait, store it into `backoff_ms`, wait, and grow
`backoff_ms` by 1.2 only when there was no retry hint.  Result: (milliseconds
waited, `backoff_ms` on exit from the handler). -/
def rateLimitStep (backoff : Int) (hint : Option Int) : Int × Int :=
  let wait := clampWait (match hint with | some h => h | none => backoff)
  match hint with
  | some _ => (wait, wait)
  | none => (wait, growBackoff wait)

/-! ### worker.py: _parse_retry_after

The string/float/date parsing itself is Python library behaviour; the model
abstracts the input into the four cases the function distinguishes, keeping
the sign, finiteness and rounding logic exact: a missing/blank value, a value
`float(...)` accepts (with its finiteness), a value neither `float` nor
`parsedate_to_datetime` accepts, and a parsed HTTP date (carried as its
offset in seconds from the current time).  Every branch returns; the Lean
function being total mirrors that the Python function catches the exceptions
of both parsers. -/

inductive RetryAfterValue where
  | missing : RetryAfterValue
  | numeric (finite : Bool) (seconds : ℚ) : RetryAfterValue
  | unparseable : RetryAfterValue
  | httpDate (deltaSeconds : ℚ) : RetryAfterValue
deriving DecidableEq

/-- `_parse_retry_after` (worker.py lines 119-141). -/
def parseRetryAfter : RetryAfterValue → Option Int
  | .missing => none
  | .unparseable => none
  | .numeric finite s => if finite = false ∨ s < 0 then none else some ⌈s * 1000⌉
  | .httpDate d => if d ≤ 0 then none else some ⌈d * 1000⌉

/-! ### worker.py: _discover_matches

A fetched page is a list of matches; each match contributes its list of
participant `steamAccountId` values, `none` standing for a value `int(...)`
rejects (malformed participants, non-dict matches and non-list player arrays
contribute nothing and are folded into these cases).  The function walks the
pages in order, stops before processing an empty page and after processing a
short page (`len(matches) < take`), and counts each valid candidate
(positive and different from the queried player) into an insertion-ordered
dictionary, which the Python code keeps as `discovered` plus `order`.  The
model keeps the same data as one insertion-ordered association list. -/

/-- One fetched page: matches, each with its parsed participant ids. -/
abbrev DiscPage := List (List (Option Int))

/-- Count a candidate: increment its entry or append a fresh `(c, 1)`. -/
def bump : List (Int × Nat) → Int → List (Int × Nat)
  | [], c => [(c, 1)]
  | (a, k) :: rest, c =>
    if a == c then (a, k + 1) :: rest else (a, k) :: bump rest c

/-- Process one participant: skip parse failures, non-positive ids and the
own id of the queried player. -/
def stepCand (pid : Int) (st : List (Int × Nat)) : Option Int → List (Int × Nat)
  | none => st
  | some c => if c ≤ 0 ∨ c = pid then st else bump st c

/-- Process the participants of one match. -/
def procMatch (pid : Int) (st : List (Int × Nat)) (m : List (Option Int)) :
    List (Int × Nat) :=
  m.foldl (stepCand pid) st

/-- Process the matches of one page. -/
def procPage (pid : Int) (st : List (Int × Nat)) (p : DiscPage) :
    List (Int × Nat) :=
  p.foldl (procMatch pid) st

/-- The paging loop of `_discover_matches`: stop on an empty page, otherwise
process the page and stop when it was short. -/
def discoverLoop (pid take : Int) : List (Int × Nat) → List DiscPage → List (Int × Nat)
  | st, [] => st
  | st, p :: rest =>
    if p.isEmpty then st
    else
      let st1 := procPage pid st p
      if (p.length : Int) < take then st1 else discoverLoop pid take st1 rest

/-- `_discover_matches` (worker.py lines 413-474), given the successive pages
the API returns: the resulting `[{"steamAccountId": id, "count": n}]` list in
first-seen order.  `take = max(1, int(take))` as in the source. -/
def discoverMatches (pid take : Int) (pages : List DiscPage) : List (Int × Nat) :=
  discoverLoop pid (max 1 take) [] pages

/-- The single candidate filter of the inner loop, as used on a flat stream. -/
def candFilter (pid : Int) : Option Int → Option Int
  | none => none
  | some c => if c ≤ 0 ∨ c = pid then none else some c

/-- Valid candidates contributed by one match. -/
def matchCands (pid : Int) (m : List (Option Int)) : List Int :=
  m.filterMap (candFilter pid)

/-- Valid candidates contributed by one page. -/
def pageCands (pid : Int) (p : DiscPage) : List Int :=
  (p.map (matchCands pid)).flatten

/-- The flat stream of valid candidate observations across the pages the
loop actually fetches (same stopping rule as `discoverLoop`). -/
def observedLoop (pid take : Int) : List DiscPage → List Int
  | [] => []
  | p :: rest =>
    if p.isEmpty then []
    else
      pageCands pid p ++ (if (p.length : Int) < take then [] else observedLoop pid take rest)

/-- All match participations observed for the run of the queried player. -/
def observedCands (pid take : Int) (pages : List DiscPage) : List Int :=
  observedLoop pid (max 1 take) pages

/-- Association lookup with a 0 default: the count recorded so far. -/
def lookupCount : List (Int × Nat) → Int → Nat
  | [], _ => 0
  | (a, k) :: rest, c => if a == c then k else lookupCount rest c

/-! ### worker.py: the worker_entry loop as a small-step system

Only the control flow relevant to task holding, stop checks, the request
budget and `_reset_task` calls is modelled; logging, status messages and
backoff sleeps are omitted.  A task is an abstract handle (`Nat`).  Each loop
iteration reads an environment record carrying the values the iteration
observes: the stop flag at the `while` condition, the `_fetch_task` result,
the stop flag re-read right after the fetch (worker.py line 585), the stop
flag at the dedicated pre-execution check (line 606), and the outcome of
executing the held task.  `invalid` covers the malformed-id and
unknown-task-type branches (both reset the task and continue); the three
exception outcomes mirror the `except` handlers: a rate limit drops the task
without a reset, network and unexpected errors reset it. -/

inductive WOutcome where
  | success (next : Option Nat)
  | rateLimited
  | netError
  | otherError
  | invalid
deriving DecidableEq

structure IterEnv where
  stopTop : Bool
  fetched : Option Nat
  stopAfterFetch : Bool
  stopPre : Bool
  outcome : WOutcome
deriving DecidableEq

/-- Loop state: the `task` variable, `requests_remaining`, and the list of
tasks passed to `_reset_task` so far (in call order). -/
structure WorkerSt where
  task : Option Nat
  budget : Option Nat
  resets : List Nat
deriving DecidableEq

inductive StepOut where
  | next (s : WorkerSt)
  | exited (s : WorkerSt)
deriving DecidableEq

/-- Executing the held task `tk` (worker.py lines 612-681 and the `except`
handlers).  On success, `completed_tasks` increments and the budget
decrements via `max(0, n-1)`; hitting zero resets the follow-up task and
breaks with the `task` variable still holding the old (already submitted)
task.  Otherwise `task = next_task`. -/
def execPhase (s : WorkerSt) (tk : Nat) (e : IterEnv) : StepOut :=
  match e.outcome with
  | .invalid => .next { s with task := none, resets := s.resets ++ [tk] }
  | .rateLimited => .next { s with task := none }
  | .netError => .next { s with task := none, resets := s.resets ++ [tk] }
  | .otherError => .next { s with task := none, resets := s.resets ++ [tk] }
  | .success nxt =>
    match s.budget with
    | none => .next { s with task := nxt }
    | some n =>
      if n - 1 = 0 then
        .exited { task := some tk, budget := some 0, resets := s.resets ++ nxt.toList }
      else
        .next { task := nxt, budget := some (n - 1), resets := s.resets }

/-- The body from the dedicated stop check (line 606) on: on stop with a task
held, reset it and break; otherwise execute. -/
def bodyPhase (s : WorkerSt) (e : IterEnv) : StepOut :=
  if e.stopPre then
    match s.task with
    | some tk => .exited { task := none, budget := s.budget, resets := s.resets ++ [tk] }
    | none => .exited s
  else
    match s.task with
    | some tk => execPhase s tk e
    | none => .next s

/-- One full loop iteration: the `while` condition, then (when no task is
held) the fetch with its immediate stop check (line 585, which breaks
without resetting the just-fetched task) and the no-task 60-second wait,
then `bodyPhase`. -/
def stepIter (s : WorkerSt) (e : IterEnv) : StepOut :=
  if e.stopTop then .exited s
  else
    match s.task with
    | none =>
      if e.stopAfterFetch then .exited { s with task := e.fetched }
      else
        match e.fetched with
        | none => .next s
        | some tk => bodyPhase { s with task := some tk } e
    | some _ => bodyPhase s e

/-- Run the loop over a list of iteration environments (the observations of the
run, in order); stops at the first exit. -/
def runWorker (s : WorkerSt) : List IterEnv → WorkerSt
  | [] => s
  | e :: es =>
    match stepIter s e with
    | .exited s1 => s1
    | .next s1 => runWorker s1 es

/-! ### task_pool.py: the prefetch pool

The pool state is the buffered tasks of the queue (in FIFO order) plus the refill
event flag.  `get()` (task_pool.py lines 55-68) takes the head without
blocking; on an empty buffer it makes one direct synchronous
`assign_next_task()` call, whose result is passed in as `direct` (the
function lives in the missing `web/assignment.py`; the pool treats it as an
external callable).  The refill event is set when the buffer has dropped to the
threshold or the returned task is `None`.  Buffered entries are tasks the
refill loop obtained, never `None`. -/

structure PoolState where
  buffer : List Nat
  refill : Bool
deriving DecidableEq

/-- `TaskPool.get()`: result and new pool state. -/
def poolGet (threshold : Nat) (s : PoolState) (direct : Option Nat) :
    Option Nat × PoolState :=
  match s.buffer with
  | [] =>
    (direct, { s with refill := if direct.isNone then true else s.refill })
  | t :: rest =>
    let refill1 := if rest.length ≤ threshold then true else s.refill
    (some t, { buffer := rest, refill := refill1 })

/-! ### Concrete fixtures used by witnesses and counterexamples -/

/-- Two fresh players, as after seeding ids 1 and 2. -/
def exDb0 : List PlayerRow :=
  [⟨1, none, none, false⟩, ⟨2, none, none, false⟩]

/-- `exDb0` after `/task` leased player 1 at time 100. -/
def exDb1 : List PlayerRow :=
  [⟨1, some "browser", some 100, false⟩, ⟨2, none, none, false⟩]

/-- A database holding one claimed, unfinished player. -/
def exSubmitDb : AppDb :=
  ⟨[⟨1, some "browser", some 5, false⟩], [], []⟩

/-- A best table where hero 5 is held by player 1 with 10 matches. -/
def exBest0 : List BestRow := [⟨5, "Crystal Maiden", 1, 10, 4⟩]

/-- An app state carrying `exBest0`. -/
def exApp0 : AppDb := ⟨[], [], exBest0⟩

/-- A legacy row leased at time 100 (so aged 0 seconds at `now = 100`). -/
def exLegacyRow : LegacyRow := ⟨1, some 0, some "worker", some 100, false, false⟩

/-- A pg row leased 30 seconds before `now = 1000`. -/
def exPgFresh : PgRow := ⟨1, some 0, some "w", some 970, none, false, false, 0⟩

/-- Discovery fixture: one page, one match, participants 1, 2, junk, 0, the
player itself (7) and 1 again. -/
def exPages : List DiscPage :=
  [[[some 1, some 2, none, some 0, some 7, some 1]]]

/-! ## Supporting lemmas for the /task endpoint -/

theorem setLease_id (now x : Int) (r : PlayerRow) : (setLease now x r).id = r.id := by
  unfold setLease; split <;> rfl

theorem assignedOf_of_mem {db : List PlayerRow} {r : PlayerRow}
    (hnd : idsNodup db) (hr : r ∈ db) : assignedOf db r.id = r.assigned_to := by
  induction db with
  | nil => cases hr
  | cons q t ih =>
    have hnd' : q.id ∉ t.map PlayerRow.id ∧ idsNodup t := by
      simpa [idsNodup] using hnd
    by_cases hq : q.id = r.id
    · have hrq : r = q := by
        rcases List.mem_cons.mp hr with h | h
        · exact h
        · exact absurd (hq ▸ List.mem_map_of_mem PlayerRow.id h) hnd'.1
      subst hrq
      simp [assignedOf, List.find?]
    · have hrt : r ∈ t := by
        rcases List.mem_cons.mp hr with h | h
        · exact absurd (h ▸ rfl) hq
        · exact h
      have : (q.id == r.id) = false := by simp [hq]
      simpa [assignedOf, List.find?, this] using ih hnd'.2 hrt

theorem find?_id_map_setLease (now x y : Int) (db : List PlayerRow) :
    (db.map (setLease now x)).find? (fun r => r.id == y) =
      (db.find? (fun r => r.id == y)).map (setLease now x) := by
  induction db with
  | nil => rfl
  | cons q t ih =>
    by_cases hq : q.id = y
    · simp [List.find?, setLease_id, hq]
    · have h1 : (q.id == y) = false := by simp [hq]
      have h2 : ((setLease now x q).id == y) = false := by simp [setLease_id, hq]
      simp [List.find?, h1, h2, ih]

/-- Claim C1: the `/task` endpoint is a single conditional update.  Whenever a
call returns node id `x`, the selected row was unleased and eligible
(`done=0`, `assigned_to IS NULL`), the lease is set in the very same atomic
step, and no claim call executed from any state in which `x` is still leased
can return `x` again, for the `/task` calls are serialized as atomic SQL
statements; hence no two concurrent calls can obtain the same node id while
both leases are outstanding. -/
theorem task_claim_mutual_exclusion
    (now : Int) (db : List PlayerRow) (x : Int) (db2 : List PlayerRow)
    (hnd : idsNodup db)
    (h : claimTask now db = (some x, db2)) :
    assignedOf db x = none ∧
    (∃ r ∈ db, r.id = x ∧ r.done = false ∧ r.assigned_to = none) ∧
    assignedOf db2 x = some "browser" ∧
    ∀ (now2 : Int) (t : List PlayerRow), idsNodup t → assignedOf t x ≠ none →
      (claimTask now2 t).1 ≠ some x := by
  rcases hf : db.find? eligibleRow with _ | r
  · simp [claimTask, hf] at h
  · have hx : r.id = x ∧ db2 = db.map (setLease now r.id) := by
      have h2 := h
      simp [claimTask, hf] at h2
      exact ⟨h2.1, h2.2.symm⟩
    obtain ⟨hid, hdb2⟩ := hx
    have hmem : r ∈ db := List.mem_of_find?_eq_some hf
    have helig : r.done = false ∧ r.assigned_to = none := by
      have h3 := List.find?_some hf
      simpa [eligibleRow, Option.isNone_iff_eq_none] using h3
    have hdone : r.done = false := helig.1
    have hassig : r.assigned_to = none := helig.2
    have hbefore : assignedOf db x = none := by
      have h4 := assignedOf_of_mem hnd hmem
      rw [hid] at h4
      rw [h4, hassig]
    refine ⟨hbefore, ⟨r, hmem, hid, hdone, hassig⟩, ?_, ?_⟩
    · have hfind : ∃ q, db.find? (fun r0 => r0.id == x) = some q := by
        rcases hq : db.find? (fun r0 => r0.id == x) with _ | q
        · exfalso
          have h5 := List.find?_eq_none.mp hq r hmem
          simp [hid] at h5
        · exact ⟨q, hq⟩
      obtain ⟨q, hq⟩ := hfind
      have hqid : q.id = x := by
        have h6 := List.find?_some hq
        simpa using h6
      have h7 : assignedOf db2 x = (setLease now r.id q).assigned_to := by
        rw [hdb2]
        unfold assignedOf
        rw [find?_id_map_setLease, hq]
        rfl
      rw [h7]
      simp [setLease, hid, hqid]
    · intro now2 t hnt hta hcontra
      rcases hf2 : t.find? eligibleRow with _ | r2
      · simp [claimTask, hf2] at hcontra
      · have hr2 : r2.id = x := by
          simpa [claimTask, hf2] using hcontra
        have hmem2 : r2 ∈ t := List.mem_of_find?_eq_some hf2
        have hassig2 : r2.assigned_to = none := by
          have h8 := List.find?_some hf2
          have h9 : r2.done = false ∧ r2.assigned_to = none := by
            simpa [eligibleRow, Option.isNone_iff_eq_none] using h8
          exact h9.2
        have h10 : assignedOf t x = none := by
          have h11 := assignedOf_of_mem hnt hmem2
          rw [hr2] at h11
          rw [h11, hassig2]
        exact hta h10

/-- Witness for C1: on two fresh players, the first claim returns and leases
player 1, and a second claim run while that lease is outstanding cannot
return player 1 again. -/
theorem task_claim_mutual_exclusion_witness :
    assignedOf exDb1 1 = some "browser" ∧ (claimTask 200 exDb1).1 ≠ some 1 := by
  have h := task_claim_mutual_exclusion 100 exDb0 1 exDb1
    (by unfold idsNodup; decide) (by decide)
  exact ⟨h.2.2.1, h.2.2.2 200 exDb1 (by unfold idsNodup; decide) (by decide)⟩

/-! ## The prefetch pool -/

/-- Claim C7: `TaskPool.get()` never waits on the refill thread: when the
buffer is non-empty it returns the buffered head (and pops it), and when the
buffer is empty it returns exactly the result of the one direct synchronous
`assign_next_task()` call. -/
theorem pool_get_buffer_or_direct :
    ∀ (threshold : Nat) (s : PoolState) (direct : Option Nat),
      (s.buffer = [] → (poolGet threshold s direct).1 = direct) ∧
      (∀ (t : Nat) (rest : List Nat), s.buffer = t :: rest →
        (poolGet threshold s direct).1 = some t ∧
        (poolGet threshold s direct).2.buffer = rest) := by
  intro th s d
  obtain ⟨buf, rf⟩ := s
  constructor
  · intro hb
    have hb' : buf = [] := hb
    subst hb'
    simp [poolGet]
  · intro t rest hb
    have hb' : buf = t :: rest := hb
    subst hb'
    constructor <;> simp [poolGet]

/-- Witness for C7: a buffered task is returned as-is; an empty buffer hands
back the result of the direct call. -/
theorem pool_get_buffer_or_direct_witness :
    (poolGet 3 ⟨[], false⟩ (some 9)).1 = some 9 ∧
    (poolGet 3 ⟨[5, 6], false⟩ none).1 = some 5 := by
  have h := pool_get_buffer_or_direct
  exact ⟨(h 3 ⟨[], false⟩ (some 9)).1 rfl, ((h 3 ⟨[5, 6], false⟩ none).2 5 [6] rfl).1⟩

/-! ## _parse_retry_after -/

/-- Claim C10: `_parse_retry_after` always returns (the function is total and
both parser exceptions are caught), and the result is either `None` or a
non-negative number of milliseconds; negative or non-finite numeric values,
unparseable values, blank values and HTTP dates not in the future all yield
`None`. -/
theorem retry_after_total_nonneg :
    (∀ (v : RetryAfterValue) (n : Int), parseRetryAfter v = some n → 0 ≤ n) ∧
    (∀ (f : Bool) (s : ℚ), s < 0 → parseRetryAfter (.numeric f s) = none) ∧
    (∀ s : ℚ, parseRetryAfter (.numeric false s) = none) ∧
    (∀ d : ℚ, d ≤ 0 → parseRetryAfter (.httpDate d) = none) ∧
    parseRetryAfter .missing = none ∧ parseRetryAfter .unparseable = none := by
  refine ⟨?_, ?_, ?_, ?_, rfl, rfl⟩
  · intro v n h
    cases v with
    | missing => simp [parseRetryAfter] at h
    | unparseable => simp [parseRetryAfter] at h
    | numeric f s =>
      simp only [parseRetryAfter] at h
      by_cases hc : f = false ∨ s < 0
      · rw [if_pos hc] at h
        cases h
      · rw [if_neg hc] at h
        have hs : (0 : ℚ) ≤ s := le_of_not_lt (fun hl => hc (Or.inr hl))
        have hn : n = ⌈s * 1000⌉ := (Option.some.injEq _ _ ▸ h).symm
        rw [hn]
        exact Int.ceil_nonneg (mul_nonneg hs (by norm_num))
    | httpDate d =>
      simp only [parseRetryAfter] at h
      by_cases hc : d ≤ 0
      · rw [if_pos hc] at h
        cases h
      · rw [if_neg hc] at h
        have hd : (0 : ℚ) ≤ d := le_of_not_le hc
        have hn : n = ⌈d * 1000⌉ := (Option.some.injEq _ _ ▸ h).symm
        rw [hn]
        exact Int.ceil_nonneg (mul_nonneg hd (by norm_num))
  · intro f s hs
    simp only [parseRetryAfter]
    rw [if_pos (Or.inr hs)]
  · intro s
    simp [parseRetryAfter]
  · intro d hd
    simp only [parseRetryAfter]
    rw [if_pos hd]

/-- Witness for C10: a finite value of 2 seconds yields a non-negative
result, a negative value and a non-future date yield `None`. -/
theorem retry_after_total_nonneg_witness :
    (0 : Int) ≤ 2000 ∧ parseRetryAfter (.numeric true (-1)) = none ∧
      parseRetryAfter (.httpDate 0) = none := by
  have h := retry_after_total_nonneg
  refine ⟨h.1 (.numeric true 2) 2000 ?_, h.2.1 true (-1) (by norm_num),
    h.2.2.2.1 0 le_rfl⟩
  show parseRetryAfter (.numeric true 2) = some 2000
  have h2 : ((2 : ℚ) * 1000) = ((2000 : Int) : ℚ) := by norm_num
  simp only [parseRetryAfter, h2, Int.ceil_intCast]
  norm_num

/-! ## The rate-limit handler -/

/-- Claim C5 counterexample: on a hinted rate limit the handler does alter the
stored backoff.  With entry backoff 1000 ms and hint 5000 ms the handler
waits 5000 ms but exits with `backoff_ms = 5000`, not the entry value
1000 ms the claim requires. -/
theorem rate_limit_hint_counterexample :
    rateLimitStep 1000 (some 5000) = (5000, 5000) ∧ (5000 : Int) ≠ 1000 := by
  decide

/-- Claim C5 as amended: on a rate-limit response with an explicit retry hint
the worker waits `min(max(hint, 0), 24h)` milliseconds — exactly the hint
whenever the hint lies within those bounds — independently of the entry
backoff, and on exit the stored backoff equals the waited duration (the
entry value is discarded and the ×1.2 growth is skipped). -/
theorem rate_limit_hint_amended :
    ∀ (b b2 h : Int),
      (rateLimitStep b (some h)).1 = clampWait h ∧
      (rateLimitStep b (some h)).2 = (rateLimitStep b (some h)).1 ∧
      (rateLimitStep b (some h)).1 = (rateLimitStep b2 (some h)).1 ∧
      (0 ≤ h → h ≤ MAX_BACKOFF_MS → (rateLimitStep b (some h)).1 = h) := by
  intro b b2 h
  refine ⟨rfl, rfl, rfl, ?_⟩
  intro h0 h1
  show clampWait h = h
  unfold clampWait
  rw [min_eq_left h1]
  exact max_eq_right h0

/-- Witness for C5 (amended): with hint 7000 ms the wait is exactly 7000 ms
whatever the entry backoff. -/
theorem rate_limit_hint_amended_witness :
    (rateLimitStep 1000 (some 7000)).1 = 7000 := by
  exact (rate_limit_hint_amended 1000 77 7000).2.2.2 (by decide) (by decide)

/-! ## The lease reapers -/

/-- Claim C4 counterexample: the legacy reaper
(`database.py::release_incomplete_assignments`) clears a lease acquired at
the very moment it runs (age 0 seconds), although no staleness window — for
example the 600-second default of the Postgres reaper — has elapsed, so rows
are cleared that have not been leased longer than `max_age`; re-tracing the
`UPDATE ... WHERE assigned_to IS NOT NULL` shows it ignores `assigned_at`
entirely. -/
theorem reaper_window_counterexample :
    releaseIncompleteLegacy [exLegacyRow] =
      [⟨1, some 0, none, none, false, false⟩] ∧
    exLegacyRow.assigned_at = some 100 ∧ (100 : Int) - 100 < 600 := by
  decide

theorem clearStale_not_stale (a n : Int) (r : PgRow)
    (h : staleRow a n r = false) : clearStale a n r = r := by
  simp [clearStale, h]

theorem staleRow_clearStale (a n : Int) (r : PgRow) :
    staleRow a n (clearStale a n r) = false := by
  unfold clearStale
  rcases hs : staleRow a n r with _ | _
  · simp [hs]
  · simp [staleRow]

theorem clearStale_idem (a n : Int) (r : PgRow) :
    clearStale a n (clearStale a n r) = clearStale a n r := by
  rcases hs : staleRow a n r with _ | _
  · simp [clearStale_not_stale a n r hs]
  · exact clearStale_not_stale a n _ (staleRow_clearStale a n r)

/-- Claim C4 as amended: the Postgres reaper
(`stratz_scraper/database.py::release_incomplete_assignments`) clears exactly
the rows holding a lease whose timestamp is missing or lies at least
`max_age` in the past (the boundary `age = max_age` is cleared as well); a
row leased for strictly less than `max_age` is untouched, an unleased row is
untouched, and the operation is idempotent: a second run at the same instant
changes nothing and reports zero cleared rows.  (The legacy SQLite helper,
by contrast, clears every outstanding assignment regardless of age, per the
counterexample.) -/
theorem reaper_amended :
    ∀ (m now : Int) (rows : List PgRow),
      (∀ r : PgRow, r.assigned_to = none → clearStale (60 * m) now r = r) ∧
      (∀ (r : PgRow) (w : String) (t : Int), r.assigned_to = some w →
        r.assigned_at = some t → now - t < 60 * m → clearStale (60 * m) now r = r) ∧
      (∀ (r : PgRow) (w : String), r.assigned_to = some w → r.assigned_at = none →
        clearStale (60 * m) now r = { r with assigned_to := none, assigned_at := none }) ∧
      (∀ (r : PgRow) (w : String) (t : Int), r.assigned_to = some w →
        r.assigned_at = some t → t ≤ now - 60 * m →
        clearStale (60 * m) now r = { r with assigned_to := none, assigned_at := none }) ∧
      releaseIncompleteAssignments m now (releaseIncompleteAssignments m now rows).1 =
        ((releaseIncompleteAssignments m now rows).1, 0) := by
  intro m now rows
  refine ⟨?_, ?_, ?_, ?_, ?_⟩
  · intro r h
    exact clearStale_not_stale _ _ _ (by simp [staleRow, h])
  · intro r w t ha ht hage
    refine clearStale_not_stale _ _ _ ?_
    have : ¬ (t ≤ now - 60 * m) := by omega
    simp [staleRow, ha, ht, this]
  · intro r w ha ht
    have hs : staleRow (60 * m) now r = true := by simp [staleRow, ha, ht]
    simp [clearStale, hs]
  · intro r w t ha ht hage
    have hs : staleRow (60 * m) now r = true := by simp [staleRow, ha, ht, hage]
    simp [clearStale, hs]
  · unfold releaseIncompleteAssignments
    refine Prod.ext ?_ ?_
    · show List.map (clearStale (60 * m) now) (List.map (clearStale (60 * m) now) rows) =
        List.map (clearStale (60 * m) now) rows
      rw [List.map_map]
      apply List.map_congr_left
      intro r _
      simpa [Function.comp] using clearStale_idem (60 * m) now r
    · show (List.filter (staleRow (60 * m) now)
          (List.map (clearStale (60 * m) now) rows)).length = 0
      simp only [List.length_eq_zero]
      rw [List.filter_eq_nil_iff]
      intro a ha
      rcases List.mem_map.mp ha with ⟨r, _, hr⟩
      rw [← hr]
      simp [staleRow_clearStale]

/-- Witness for C4 (amended): a lease 30 seconds old survives a 10-minute
reaper run, and re-running the reaper on its own output is a no-op that
clears zero rows. -/
theorem reaper_amended_witness :
    clearStale (60 * 10) 1000 exPgFresh = exPgFresh ∧
    releaseIncompleteAssignments 10 1000 (releaseIncompleteAssignments 10 1000 [exPgFresh]).1 =
      ((releaseIncompleteAssignments 10 1000 [exPgFresh]).1, 0) := by
  have h := reaper_amended 10 1000 [exPgFresh]
  exact ⟨h.2.1 exPgFresh "w" 970 (by decide) (by decide) (by decide), h.2.2.2.2⟩

/-! ## Stop handling in the worker loop -/

/-- Claim C6 counterexample: a run in which the stop signal is first observed
at the check immediately after `_fetch_task` (worker.py line 585) while the
just-fetched task 42 is held: the loop breaks at once, `_reset_task` is
never called (the reset list stays empty), and the loop terminates still
holding the lease of task 42. -/
theorem worker_stop_reset_counterexample :
    (runWorker ⟨none, none, []⟩ [⟨false, some 42, true, false, .invalid⟩]).task = some 42 ∧
    (runWorker ⟨none, none, []⟩ [⟨false, some 42, true, false, .invalid⟩]).resets = [] := by
  decide

/-- Claim C6 as amended: only the dedicated in-loop stop check (worker.py
line 606) restores a held lease: whenever the stop signal is observed there
— with a task held from the previous iteration or just fetched in this one —
the loop calls `_reset_task` on exactly that task and exits holding nothing.
A stop signal first observed immediately after `_fetch_task` (line 585) or
at the `while` condition with a follow-up task held exits without a reset
and leaves the lease to the reaper, per the counterexample. -/
theorem worker_stop_reset_amended :
    ∀ (s : WorkerSt) (e : IterEnv) (tk : Nat),
      e.stopTop = false → e.stopPre = true →
      (s.task = some tk ∨
        (s.task = none ∧ e.fetched = some tk ∧ e.stopAfterFetch = false)) →
      stepIter s e = .exited ⟨none, s.budget, s.resets ++ [tk]⟩ := by
  intro s e tk h1 h2 h3
  rcases h3 with h | ⟨hn, hf, hs⟩
  · simp [stepIter, h1, h, bodyPhase, h2]
  · simp [stepIter, h1, hn, hs, hf, bodyPhase, h2]

/-- Witness for C6 (amended): stop observed at the dedicated check with task
7 held resets task 7 and exits clean. -/
theorem worker_stop_reset_amended_witness :
    stepIter ⟨some 7, some 3, [1]⟩ ⟨false, none, false, true, .invalid⟩ =
      .exited ⟨none, some 3, [1, 7]⟩ := by
  have h := worker_stop_reset_amended ⟨some 7, some 3, [1]⟩
    ⟨false, none, false, true, .invalid⟩ 7 rfl rfl (Or.inl rfl)
  simpa using h

/-! ## The leaderboard (best table) -/

theorem upsertBest_no_change :
    ∀ (l : List BestRow) (hid : Int) (name : String) (pid m w old : Int),
      bestMatches l hid = some old → m ≤ old →
      upsertBest hid name pid m w l = l := by
  intro l
  induction l with
  | nil =>
    intro hid name pid m w old h _
    simp [bestMatches] at h
  | cons r rest ih =>
    intro hid name pid m w old h hm
    cases hr : r.hero_id == hid with
    | true =>
      have hold : r.«matches» = old := by simpa [bestMatches, hr] using h
      have hlt : ¬ (r.«matches» < m) := by omega
      simp [upsertBest, hr, hlt]
    | false =>
      have h2 : bestMatches rest hid = some old := by simpa [bestMatches, hr] using h
      simp [upsertBest, hr, ih hid name pid m w old h2 hm]

theorem bestMatches_upsert_mono :
    ∀ (l : List BestRow) (hid2 hid : Int) (name : String) (pid m w old : Int),
      bestMatches l hid2 = some old →
      ∃ nw, bestMatches (upsertBest hid name pid m w l) hid2 = some nw ∧ old ≤ nw := by
  intro l
  induction l with
  | nil =>
    intro hid2 hid name pid m w old h
    simp [bestMatches] at h
  | cons r rest ih =>
    intro hid2 hid name pid m w old h
    cases hr : r.hero_id == hid with
    | true =>
      by_cases hm : r.«matches» < m
      · cases hr2 : r.hero_id == hid2 with
        | true =>
          have hold : r.«matches» = old := by simpa [bestMatches, hr2] using h
          refine ⟨m, ?_, by omega⟩
          simp [upsertBest, hr, hm, bestMatches, hr2]
        | false =>
          have h2 : bestMatches rest hid2 = some old := by
            simpa [bestMatches, hr2] using h
          exact ⟨old, by simp [upsertBest, hr, hm, bestMatches, hr2, h2], le_refl old⟩
      · refine ⟨old, ?_, le_refl old⟩
        simpa [upsertBest, hr, hm] using h
    | false =>
      cases hr2 : r.hero_id == hid2 with
      | true =>
        have hold : r.«matches» = old := by simpa [bestMatches, hr2] using h
        exact ⟨old, by simp [upsertBest, hr, bestMatches, hr2, hold], le_refl old⟩
      | false =>
        have h2 : bestMatches rest hid2 = some old := by simpa [bestMatches, hr2] using h
        obtain ⟨nw, h3, h4⟩ := ih hid2 hid name pid m w old h2
        exact ⟨nw, by simp [upsertBest, hr, bestMatches, hr2, h3], h4⟩

theorem bestMatches_submitHero_mono :
    ∀ (pid : Int) (st : AppDb) (h : HeroEntry) (hid2 old : Int),
      bestMatches st.best hid2 = some old →
      ∃ nw, bestMatches (submitHero pid st h).best hid2 = some nw ∧ old ≤ nw := by
  intro pid st h hid2 old hb
  cases hn : heroName h.hero_id with
  | none => exact ⟨old, by simp [submitHero, hn]; exact hb, le_refl old⟩
  | some name =>
    by_cases he : name = ""
    · exact ⟨old, by simp [submitHero, hn, he]; exact hb, le_refl old⟩
    · have h2 := bestMatches_upsert_mono st.best hid2 h.hero_id name pid h.games h.wins old hb
      obtain ⟨nw, h3, h4⟩ := h2
      exact ⟨nw, by simp [submitHero, hn, he]; exact h3, h4⟩

theorem bestMatches_foldHeroes_mono :
    ∀ (pid : Int) (hs : List HeroEntry) (st : AppDb) (hid2 old : Int),
      bestMatches st.best hid2 = some old →
      ∃ nw, bestMatches (hs.foldl (submitHero pid) st).best hid2 = some nw ∧ old ≤ nw := by
  intro pid hs
  induction hs with
  | nil =>
    intro st hid2 old hb
    exact ⟨old, hb, le_refl old⟩
  | cons h t ih =>
    intro st hid2 old hb
    obtain ⟨n1, h1, h2⟩ := bestMatches_submitHero_mono pid st h hid2 old hb
    obtain ⟨n2, h3, h4⟩ := ih (submitHero pid st h) hid2 n1 h1
    exact ⟨n2, by simpa [List.foldl_cons] using h3, le_trans h2 h4⟩

theorem bestMatches_runSubmits_mono :
    ∀ (calls : List (Int × List HeroEntry)) (st : AppDb) (hid2 old : Int),
      bestMatches st.best hid2 = some old →
      ∃ nw, bestMatches (runSubmits st calls).best hid2 = some nw ∧ old ≤ nw := by
  intro calls
  induction calls with
  | nil =>
    intro st hid2 old hb
    exact ⟨old, hb, le_refl old⟩
  | cons c t ih =>
    intro st hid2 old hb
    obtain ⟨n1, h1, h2⟩ := bestMatches_foldHeroes_mono c.1 c.2 st hid2 old hb
    have hbest : (submitDb st c).best = (c.2.foldl (submitHero c.1) st).best := rfl
    obtain ⟨n2, h3, h4⟩ := ih (submitDb st c) hid2 n1 (by rw [hbest]; exact h1)
    exact ⟨n2, by simpa [runSubmits, List.foldl_cons] using h3, le_trans h2 h4⟩

/-- Claim C2: the `best` upsert fires only on a strictly greater `matches`
value — an equal or smaller submission leaves the stored row (holder
included) untouched — and consequently, for a fixed hero id, the stored
`matches` count never decreases across any sequence of `/submit` calls. -/
theorem leaderboard_strict_update_monotone :
    (∀ (l : List BestRow) (hid : Int) (name : String) (pid m w old : Int),
        bestMatches l hid = some old → m ≤ old →
        upsertBest hid name pid m w l = l) ∧
    (∀ (st : AppDb) (calls : List (Int × List HeroEntry)) (hid old : Int),
        bestMatches st.best hid = some old →
        ∃ nw, bestMatches (runSubmits st calls).best hid = some nw ∧ old ≤ nw) := by
  constructor
  · exact upsertBest_no_change
  · intro st calls hid old hb
    exact bestMatches_runSubmits_mono calls st hid old hb

/-- Witness for C2: a tied submission (count 10 against stored 10) leaves the
stored holder in place, and a later greater submission only raises the
stored count. -/
theorem leaderboard_strict_update_monotone_witness :
    upsertBest 5 "Crystal Maiden" 2 10 3 exBest0 = exBest0 ∧
    (∃ nw, bestMatches (runSubmits exApp0 [(3, [⟨5, 12, 6⟩])]).best 5 = some nw ∧
      10 ≤ nw) := by
  have h := leaderboard_strict_update_monotone
  exact ⟨h.1 exBest0 5 "Crystal Maiden" 2 10 3 10 (by decide) (by decide),
    h.2 exApp0 [(3, [⟨5, 12, 6⟩])] 5 10 (by decide)⟩

/-! ## The /submit endpoint -/

theorem find?_id_map_of_id_preserved (f : PlayerRow → PlayerRow)
    (hf : ∀ r, (f r).id = r.id) (y : Int) :
    ∀ db : List PlayerRow,
      (db.map f).find? (fun r => r.id == y) = (db.find? (fun r => r.id == y)).map f := by
  intro db
  induction db with
  | nil => rfl
  | cons q t ih =>
    by_cases hq : q.id = y
    · simp [List.find?, hf, hq]
    · have h1 : (q.id == y) = false := by simp [hq]
      have h2 : ((f q).id == y) = false := by simp [hf, hq]
      simp [List.find?, h1, h2, ih]

theorem assignedOf_markDone (pid : Int) (db : List PlayerRow) (x : Int) :
    assignedOf (markDone pid db) x = assignedOf db x := by
  have hid : ∀ r : PlayerRow,
      ((fun r0 => if r0.id == pid then { r0 with done := true } else r0) r).id = r.id := by
    intro r
    by_cases h : r.id = pid <;> simp [h]
  unfold markDone assignedOf
  rw [find?_id_map_of_id_preserved _ hid]
  rcases h : db.find? (fun r => r.id == x) with _ | q
  · rw [h]
    rfl
  · rw [h]
    by_cases hq : q.id = pid <;> simp [hq]

theorem foldl_submitHero_players (pid : Int) :
    ∀ (hs : List HeroEntry) (st : AppDb),
      (hs.foldl (submitHero pid) st).players = st.players := by
  intro hs
  induction hs with
  | nil => intro st; rfl
  | cons h t ih =>
    intro st
    rw [List.foldl_cons, ih]
    cases hn : heroName h.hero_id with
    | none => simp [submitHero, hn]
    | some name =>
      by_cases he : name = "" <;> simp [submitHero, hn, he]

theorem foldl_submitHero_stats (pid : Int) :
    ∀ (hs : List HeroEntry) (st : AppDb),
      (submitCall st pid hs).1.heroStats = (hs.foldl (submitHero pid) st).heroStats := by
  intro hs st
  rfl

theorem statLookup_upsert_self :
    ∀ (l : List StatRow) (pid hid : Int) (name : String) (m w : Int),
      statLookup (upsertStat pid hid name m w l) pid hid = some (m, w) := by
  intro l
  induction l with
  | nil => intro pid hid name m w; simp [upsertStat, statLookup]
  | cons r rest ih =>
    intro pid hid name m w
    by_cases hk : r.player_id = pid ∧ r.hero_id = hid
    · have hb : (r.player_id == pid && r.hero_id == hid) = true := by
        simp [hk.1, hk.2]
      simp [upsertStat, hb, statLookup]
    · have hb : (r.player_id == pid && r.hero_id == hid) = false := by
        rcases not_and_or.mp hk with h | h <;> simp [h]
      simp [upsertStat, hb, statLookup, ih]

theorem statLookup_upsert_other :
    ∀ (l : List StatRow) (pid hid hid2 : Int) (name : String) (m w : Int),
      hid2 ≠ hid →
      statLookup (upsertStat pid hid2 name m w l) pid hid = statLookup l pid hid := by
  intro l
  induction l with
  | nil =>
    intro pid hid hid2 name m w hne
    simp [upsertStat, statLookup, hne]
  | cons r rest ih =>
    intro pid hid hid2 name m w hne
    by_cases hk : r.player_id = pid ∧ r.hero_id = hid2
    · have hb : (r.player_id == pid && r.hero_id == hid2) = true := by
        simp [hk.1, hk.2]
      have hb2 : (r.player_id == pid && r.hero_id == hid) = false := by
        simp [hk.2, hne]
      simp [upsertStat, hb, statLookup, hb2]
    · have hb : (r.player_id == pid && r.hero_id == hid2) = false := by
        rcases not_and_or.mp hk with h | h <;> simp [h]
      by_cases hk2 : r.player_id = pid ∧ r.hero_id = hid
      · have hb2 : (r.player_id == pid && r.hero_id == hid) = true := by
          simp [hk2.1, hk2.2]
        simp [upsertStat, hb, statLookup, hb2]
      · have hb2 : (r.player_id == pid && r.hero_id == hid) = false := by
          rcases not_and_or.mp hk2 with h | h <;> simp [h]
        simp [upsertStat, hb, statLookup, hb2, ih _ _ _ _ _ _ hne]

theorem statLookup_submitHero_self (pid : Int) (st : AppDb) (h : HeroEntry)
    (hok : heroNameOk h.hero_id = true) :
    statLookup (submitHero pid st h).heroStats pid h.hero_id =
      some (h.games, h.wins) := by
  cases hn : heroName h.hero_id with
  | none => simp [heroNameOk, hn] at hok
  | some name =>
    have he : ¬ (name = "") := by
      intro hcontra
      simp [heroNameOk, hn, hcontra] at hok
    simp [submitHero, hn, he, statLookup_upsert_self]

theorem statLookup_submitHero_other (pid : Int) (st : AppDb) (h : HeroEntry)
    (hid : Int) (hne : h.hero_id ≠ hid) :
    statLookup (submitHero pid st h).heroStats pid hid =
      statLookup st.heroStats pid hid := by
  cases hn : heroName h.hero_id with
  | none => simp [submitHero, hn]
  | some name =>
    by_cases he : name = ""
    · simp [submitHero, hn, he]
    · have hstats : (submitHero pid st h).heroStats =
          upsertStat pid h.hero_id name h.games h.wins st.heroStats := by
        simp [submitHero, hn, he]
      rw [hstats]
      exact statLookup_upsert_other st.heroStats pid hid h.hero_id name h.games h.wins hne

theorem statLookup_submitHero_notok (pid : Int) (st : AppDb) (h : HeroEntry)
    (hok : heroNameOk h.hero_id = false) (hid : Int) :
    statLookup (submitHero pid st h).heroStats pid hid =
      statLookup st.heroStats pid hid := by
  cases hn : heroName h.hero_id with
  | none => simp [submitHero, hn]
  | some name =>
    have he : name = "" := by
      by_cases hc : name = ""
      · exact hc
      · simp [heroNameOk, hn, hc] at hok
    simp [submitHero, hn, he]

theorem lastFor_append (hid : Int) (t : List HeroEntry) (h : HeroEntry) :
    lastFor (t ++ [h]) hid =
      if h.hero_id == hid then some h else lastFor t hid := by
  unfold lastFor
  rw [List.foldl_append]
  rfl

theorem statLookup_fold (pid hid : Int) (st : AppDb) :
    ∀ hs : List HeroEntry,
      statLookup (hs.foldl (submitHero pid) st).heroStats pid hid =
        match lastFor hs hid with
        | some h =>
          if heroNameOk hid then some (h.games, h.wins)
          else statLookup st.heroStats pid hid
        | none => statLookup st.heroStats pid hid := by
  intro hs
  induction hs using List.reverseRecOn with
  | nil => rfl
  | append_singleton t h ih =>
    have hfold : ((t ++ [h]).foldl (submitHero pid) st) =
        submitHero pid (t.foldl (submitHero pid) st) h := by
      rw [List.foldl_append]
      rfl
    rw [hfold, lastFor_append]
    by_cases hh : h.hero_id = hid
    · subst hh
      rw [beq_self_eq_true]
      cases hok : heroNameOk h.hero_id with
      | true =>
        simpa using statLookup_submitHero_self pid (t.foldl (submitHero pid) st) h hok
      | false =>
        rw [statLookup_submitHero_notok pid _ h hok h.hero_id, ih]
        cases lastFor t h.hero_id <;> simp [hok]
    · have hb : (h.hero_id == hid) = false := by simp [hh]
      rw [hb]
      rw [statLookup_submitHero_other pid _ h hid hh, ih]
      rfl

/-- Claim C3 counterexample: `/submit` on a claimed node does not release the
lease and does not hand back a next task.  After submitting for player 1,
whose row holds the lease (holder browser, timestamp 5), the row still carries
`assigned_to=browser` (only `done` flipped), and the response is the bare
`{"status":"ok"}` body, which contains no task. -/
theorem submit_counterexample :
    (submitCall exSubmitDb 1 []).1.players = [⟨1, some "browser", some 5, true⟩] ∧
    assignedOf (submitCall exSubmitDb 1 []).1.players 1 = some "browser" ∧
    (submitCall exSubmitDb 1 []).2 = ⟨"ok"⟩ := by
  decide

/-- Claim C3 as amended: `/submit` records the per-hero stats (for each hero
id accepted by the `HEROES` table, the stored entry afterwards is the last
submitted `(games, wins)` pair for that id) and sets the `done` flag of the node,
but it leaves `assigned_to`/`assigned_at` of every row exactly as they were
(the lease is not released) and answers only `{"status":"ok"}` with no next
task. -/
theorem submit_records_marks_keeps_lease :
    ∀ (st : AppDb) (pid : Int) (heroes : List HeroEntry),
      (∀ x, assignedOf (submitCall st pid heroes).1.players x = assignedOf st.players x) ∧
      (∀ r ∈ st.players, r.id = pid →
        { r with done := true } ∈ (submitCall st pid heroes).1.players) ∧
      (∀ (hid : Int) (h : HeroEntry), lastFor heroes hid = some h →
        heroNameOk hid = true →
        statLookup (submitCall st pid heroes).1.heroStats pid hid =
          some (h.games, h.wins)) ∧
      (submitCall st pid heroes).2 = ⟨"ok"⟩ := by
  intro st pid heroes
  have hp : (submitCall st pid heroes).1.players =
      markDone pid (heroes.foldl (submitHero pid) st).players := rfl
  refine ⟨?_, ?_, ?_, rfl⟩
  · intro x
    rw [hp, foldl_submitHero_players, assignedOf_markDone]
  · intro r hr hid
    rw [hp, foldl_submitHero_players]
    have himg : (fun r0 : PlayerRow =>
        if r0.id == pid then { r0 with done := true } else r0) r =
        { r with done := true } := by
      simp [hid]
    exact himg ▸ List.mem_map_of_mem _ hr
  · intro hid h hl hok
    rw [foldl_submitHero_stats, statLookup_fold, hl]
    rw [hok]
    simp

/-- Witness for C3 (amended): a submit for player 1 with one Anti-Mage entry
leaves the lease, records the stats, and answers a bare ok. -/
theorem submit_records_marks_keeps_lease_witness :
    assignedOf (submitCall exSubmitDb 1 [⟨1, 10, 4⟩]).1.players 1 =
      assignedOf exSubmitDb.players 1 ∧
    statLookup (submitCall exSubmitDb 1 [⟨1, 10, 4⟩]).1.heroStats 1 1 =
      some (10, 4) ∧
    (submitCall exSubmitDb 1 [⟨1, 10, 4⟩]).2 = ⟨"ok"⟩ := by
  have h := submit_records_marks_keeps_lease exSubmitDb 1 [⟨1, 10, 4⟩]
  exact ⟨h.1 1, h.2.2.1 1 ⟨1, 10, 4⟩ (by decide) (by decide), h.2.2.2⟩

/-! ## The /seed endpoint -/

theorem presentId_insertOrIgnore_preserve (db : List PlayerRow) (q pid : Int)
    (h : presentId db pid = true) : presentId (insertOrIgnore db q) pid = true := by
  unfold insertOrIgnore
  split
  · exact h
  · simp only [presentId, List.any_append]
    simp only [presentId] at h
    rw [h]
    rfl

theorem presentId_insertOrIgnore_self (db : List PlayerRow) (pid : Int) :
    presentId (insertOrIgnore db pid) pid = true := by
  unfold insertOrIgnore
  rcases h : presentId db pid with _ | _
  · simp only [Bool.false_eq_true, if_false, presentId, List.any_append]
    simp [presentId] at h
    simp
  · simpa using h

theorem foldl_insertOrIgnore_preserve (pid : Int) :
    ∀ (l : List Int) (db : List PlayerRow), presentId db pid = true →
      presentId (l.foldl insertOrIgnore db) pid = true := by
  intro l
  induction l with
  | nil => intro db h; exact h
  | cons q t ih =>
    intro db h
    exact ih (insertOrIgnore db q) (presentId_insertOrIgnore_preserve db q pid h)

theorem foldl_insertOrIgnore_present (pid : Int) :
    ∀ (l : List Int) (db : List PlayerRow), pid ∈ l →
      presentId (l.foldl insertOrIgnore db) pid = true := by
  intro l
  induction l with
  | nil => intro db h; cases h
  | cons q t ih =>
    intro db h
    rcases List.mem_cons.mp h with h | h
    · subst h
      exact foldl_insertOrIgnore_preserve pid t _ (presentId_insertOrIgnore_self db pid)
    · exact ih (insertOrIgnore db q) h

theorem mem_seedRange (s e pid : Int) : pid ∈ seedRange s e ↔ s ≤ pid ∧ pid ≤ e := by
  unfold seedRange
  rw [List.mem_map]
  constructor
  · rintro ⟨i, hi, rfl⟩
    rw [List.mem_range] at hi
    omega
  · intro h
    refine ⟨(pid - s).toNat, ?_, ?_⟩
    · rw [List.mem_range]
      omega
    · omega

theorem foldl_insertOrIgnore_append :
    ∀ (l : List Int) (db : List PlayerRow),
      ∃ ext, l.foldl insertOrIgnore db = db ++ ext ∧
        ∀ r ∈ ext, ∃ pid ∈ l, r = ⟨pid, none, none, false⟩ := by
  intro l
  induction l with
  | nil =>
    intro db
    exact ⟨[], by simp, by intro r hr; cases hr⟩
  | cons q t ih =>
    intro db
    have hstep : ∃ e0, insertOrIgnore db q = db ++ e0 ∧
        ∀ r ∈ e0, r = (⟨q, none, none, false⟩ : PlayerRow) := by
      unfold insertOrIgnore
      split
      · exact ⟨[], by simp, by intro r hr; cases hr⟩
      · exact ⟨[⟨q, none, none, false⟩], rfl, by intro r hr; simpa using hr⟩
    obtain ⟨e0, he0, he0mem⟩ := hstep
    obtain ⟨ext, hext, hmem⟩ := ih (insertOrIgnore db q)
    refine ⟨e0 ++ ext, ?_, ?_⟩
    · rw [List.foldl_cons, hext, he0, List.append_assoc]
    · intro r hr
      rcases List.mem_append.mp hr with h | h
      · exact ⟨q, List.mem_cons_self q t, he0mem r h⟩
      · obtain ⟨pid, hp, hre⟩ := hmem r h
        exact ⟨pid, List.mem_cons_of_mem q hp, hre⟩

theorem foldl_insertOrIgnore_noop :
    ∀ (l : List Int) (db : List PlayerRow),
      (∀ pid ∈ l, presentId db pid = true) → l.foldl insertOrIgnore db = db := by
  intro l
  induction l with
  | nil => intro db _; rfl
  | cons q t ih =>
    intro db h
    have hq : insertOrIgnore db q = db := by
      unfold insertOrIgnore
      rw [h q (List.mem_cons_self q t)]
      rfl
    rw [List.foldl_cons, hq, ih db (fun pid hp => h pid (List.mem_cons_of_mem q hp))]

/-- Claim C8 counterexample: the `players` table of `app.py` has no `depth` column
at all (its columns are exactly `id, assigned_to, assigned_at, done`), so
`/seed` cannot and does not insert rows "with depth = 0": seeding ids 1-3
produces bare unassigned, not-done rows. -/
theorem seed_depth_counterexample :
    seedCall [] 1 3 =
      [⟨1, none, none, false⟩, ⟨2, none, none, false⟩, ⟨3, none, none, false⟩] ∧
    "depth" ∉ appPlayersColumns := by
  decide

/-- Claim C8 as amended: for every `start ≤ end` range, `/seed` appends a
fresh row (unassigned, `done = 0`; the SQLite schema has no depth column to
set) for every id of `[start, end]` that is absent, leaves every existing
row untouched and in place, afterwards every id of the range is present, and
a second identical call changes nothing. -/
theorem seed_amended :
    ∀ (db : List PlayerRow) (s e : Int),
      (∃ ext, seedCall db s e = db ++ ext ∧
        ∀ r ∈ ext, r.assigned_to = none ∧ r.assigned_at = none ∧ r.done = false ∧
          s ≤ r.id ∧ r.id ≤ e) ∧
      (∀ pid, s ≤ pid → pid ≤ e → presentId (seedCall db s e) pid = true) ∧
      seedCall (seedCall db s e) s e = seedCall db s e := by
  intro db s e
  refine ⟨?_, ?_, ?_⟩
  · obtain ⟨ext, hext, hmem⟩ := foldl_insertOrIgnore_append (seedRange s e) db
    refine ⟨ext, hext, ?_⟩
    intro r hr
    obtain ⟨pid, hp, hre⟩ := hmem r hr
    have hb := (mem_seedRange s e pid).mp hp
    subst hre
    exact ⟨rfl, rfl, rfl, hb.1, hb.2⟩
  · intro pid h1 h2
    exact foldl_insertOrIgnore_present pid (seedRange s e) db
      ((mem_seedRange s e pid).mpr ⟨h1, h2⟩)
  · exact foldl_insertOrIgnore_noop (seedRange s e) (seedCall db s e)
      (fun pid hp => foldl_insertOrIgnore_present pid (seedRange s e) db hp)

/-- Witness for C8 (amended): seeding 1-2 into an empty table makes id 2
present and a second identical seed call is a no-op. -/
theorem seed_amended_witness :
    presentId (seedCall [] 1 2) 2 = true ∧
    seedCall (seedCall [] 1 2) 1 2 = seedCall [] 1 2 := by
  have h := seed_amended [] 1 2
  exact ⟨h.2.1 2 (by decide) (by decide), h.2.2⟩

/-! ## _discover_matches -/

theorem lookupCount_bump_self :
    ∀ (st : List (Int × Nat)) (c : Int),
      lookupCount (bump st c) c = lookupCount st c + 1 := by
  intro st
  induction st with
  | nil => intro c; simp [bump, lookupCount]
  | cons p rest ih =>
    intro c
    obtain ⟨a, k⟩ := p
    cases hac : a == c with
    | true => simp [bump, hac, lookupCount]
    | false => simp [bump, hac, lookupCount, ih]

theorem lookupCount_bump_other :
    ∀ (st : List (Int × Nat)) (c d : Int), d ≠ c →
      lookupCount (bump st c) d = lookupCount st d := by
  intro st
  induction st with
  | nil =>
    intro c d hdc
    have hcd : (c == d) = false := by simp [Ne.symm hdc]
    simp [bump, lookupCount, hcd]
  | cons p rest ih =>
    intro c d hdc
    obtain ⟨a, k⟩ := p
    cases hac : a == c with
    | true =>
      have hac' : a = c := by simpa using hac
      have had : (a == d) = false := by simp [hac', Ne.symm hdc]
      simp [bump, hac, lookupCount, had]
    | false =>
      cases had : a == d with
      | true => simp [bump, hac, lookupCount, had]
      | false => simp [bump, hac, lookupCount, had, ih c d hdc]

theorem mem_keys_bump :
    ∀ (st : List (Int × Nat)) (c d : Int),
      d ∈ (bump st c).map Prod.fst ↔ (d ∈ st.map Prod.fst ∨ d = c) := by
  intro st
  induction st with
  | nil => intro c d; simp [bump]
  | cons p rest ih =>
    intro c d
    obtain ⟨a, k⟩ := p
    cases hac : a == c with
    | true =>
      have hac' : a = c := by simpa using hac
      subst hac'
      have hb : bump ((a, k) :: rest) a = (a, k + 1) :: rest := by simp [bump]
      rw [hb]
      simp
      tauto
    | false =>
      simp [bump, hac, ih c d]
      tauto

theorem nodup_keys_bump :
    ∀ (st : List (Int × Nat)) (c : Int),
      (st.map Prod.fst).Nodup → ((bump st c).map Prod.fst).Nodup := by
  intro st
  induction st with
  | nil => intro c _; simp [bump]
  | cons p rest ih =>
    intro c hnd
    obtain ⟨a, k⟩ := p
    have hnd1 : a ∉ rest.map Prod.fst ∧ (rest.map Prod.fst).Nodup := by
      simpa using hnd
    cases hac : a == c with
    | true =>
      have : ((bump ((a, k) :: rest) c).map Prod.fst) = a :: rest.map Prod.fst := by
        simp [bump, hac]
      rw [this]
      simp [hnd1.1, hnd1.2]
    | false =>
      have hac' : ¬ (a = c) := by simpa using hac
      have : ((bump ((a, k) :: rest) c).map Prod.fst) =
          a :: (bump rest c).map Prod.fst := by
        simp [bump, hac]
      rw [this]
      refine List.nodup_cons.mpr ⟨?_, ih c hnd1.2⟩
      intro hmem
      rcases (mem_keys_bump rest c a).mp hmem with h | h
      · exact hnd1.1 h
      · exact hac' h

theorem lookupCount_foldl_bump :
    ∀ (l : List Int) (st : List (Int × Nat)) (c : Int),
      lookupCount (l.foldl bump st) c = lookupCount st c + l.count c := by
  intro l
  induction l with
  | nil => intro st c; simp
  | cons a t ih =>
    intro st c
    rw [List.foldl_cons, ih]
    by_cases hac : a = c
    · subst hac
      rw [lookupCount_bump_self]
      simp [List.count_cons]
      omega
    · rw [lookupCount_bump_other st a c (Ne.symm hac)]
      have hca : (a == c) = false := by simp [hac]
      rw [List.count_cons, hca]
      simp

theorem mem_keys_foldl_bump :
    ∀ (l : List Int) (st : List (Int × Nat)) (d : Int),
      d ∈ ((l.foldl bump st).map Prod.fst) ↔ (d ∈ st.map Prod.fst ∨ d ∈ l) := by
  intro l
  induction l with
  | nil => intro st d; simp
  | cons a t ih =>
    intro st d
    rw [List.foldl_cons, ih]
    rw [mem_keys_bump]
    simp
    tauto

theorem nodup_keys_foldl_bump :
    ∀ (l : List Int) (st : List (Int × Nat)),
      (st.map Prod.fst).Nodup → ((l.foldl bump st).map Prod.fst).Nodup := by
  intro l
  induction l with
  | nil => intro st h; exact h
  | cons a t ih =>
    intro st h
    rw [List.foldl_cons]
    exact ih (bump st a) (nodup_keys_bump st a h)

theorem lookupCount_of_mem :
    ∀ (st : List (Int × Nat)) (c : Int) (k : Nat),
      (st.map Prod.fst).Nodup → (c, k) ∈ st → lookupCount st c = k := by
  intro st
  induction st with
  | nil => intro c k _ h; cases h
  | cons p rest ih =>
    intro c k hnd hmem
    obtain ⟨a, k0⟩ := p
    have hnd1 : a ∉ rest.map Prod.fst ∧ (rest.map Prod.fst).Nodup := by
      simpa using hnd
    rcases List.mem_cons.mp hmem with h | h
    · have ha : a = c := (Prod.mk.injEq _ _ _ _ ▸ h.symm).1
      have hk : k0 = k := (Prod.mk.injEq _ _ _ _ ▸ h.symm).2
      simp [lookupCount, ha, hk]
    · have hck : c ∈ rest.map Prod.fst := by
        exact List.mem_map_of_mem Prod.fst h
      have hac : (a == c) = false := by
        have : ¬ (a = c) := fun he => hnd1.1 (he ▸ hck)
        simp [this]
      simp [lookupCount, hac, ih c k hnd1.2 h]

theorem mem_matchCands_valid (pid : Int) (m : List (Option Int)) (c : Int)
    (h : c ∈ matchCands pid m) : 0 < c ∧ c ≠ pid := by
  rcases List.mem_filterMap.mp h with ⟨a, _, ha⟩
  cases a with
  | none => simp [candFilter] at ha
  | some c0 =>
    by_cases hc : c0 ≤ 0 ∨ c0 = pid
    · simp [candFilter, hc] at ha
    · have hcc : c0 = c := by simpa [candFilter, hc] using ha
      subst hcc
      push_neg at hc
      exact ⟨by omega, hc.2⟩

theorem mem_pageCands_valid (pid : Int) (p : DiscPage) (c : Int)
    (h : c ∈ pageCands pid p) : 0 < c ∧ c ≠ pid := by
  rcases List.mem_flatten.mp h with ⟨cands, hcands, hc⟩
  rcases List.mem_map.mp hcands with ⟨m, _, hm⟩
  exact mem_matchCands_valid pid m c (hm ▸ hc)

theorem mem_observedLoop_valid (pid t : Int) :
    ∀ (pages : List DiscPage) (c : Int),
      c ∈ observedLoop pid t pages → 0 < c ∧ c ≠ pid := by
  intro pages
  induction pages with
  | nil => intro c h; cases h
  | cons p rest ih =>
    intro c h
    unfold observedLoop at h
    cases hemp : p.isEmpty with
    | true =>
      rw [hemp] at h
      simp at h
    | false =>
      rw [hemp] at h
      simp only [Bool.false_eq_true, if_false] at h
      rcases List.mem_append.mp h with h1 | h1
      · exact mem_pageCands_valid pid p c h1
      · by_cases hshort : (p.length : Int) < t
        · rw [if_pos hshort] at h1
          cases h1
        · rw [if_neg hshort] at h1
          exact ih c h1

theorem procMatch_eq (pid : Int) :
    ∀ (m : List (Option Int)) (st : List (Int × Nat)),
      procMatch pid st m = (matchCands pid m).foldl bump st := by
  intro m
  induction m with
  | nil => intro st; rfl
  | cons a t ih =>
    intro st
    unfold procMatch at ih ⊢
    rw [List.foldl_cons]
    cases a with
    | none =>
      have h1 : matchCands pid (none :: t) = matchCands pid t := by
        simp [matchCands, List.filterMap_cons, candFilter]
      rw [h1, ih]
      rfl
    | some c0 =>
      by_cases hc : c0 ≤ 0 ∨ c0 = pid
      · have h1 : matchCands pid (some c0 :: t) = matchCands pid t := by
          simp [matchCands, List.filterMap_cons, candFilter, hc]
        have h2 : stepCand pid st (some c0) = st := by
          simp [stepCand, hc]
        rw [h1, h2, ih]
      · have h1 : matchCands pid (some c0 :: t) = c0 :: matchCands pid t := by
          simp [matchCands, List.filterMap_cons, candFilter, hc]
        have h2 : stepCand pid st (some c0) = bump st c0 := by
          simp [stepCand, hc]
        rw [h1, h2, ih, List.foldl_cons]

theorem procPage_eq (pid : Int) :
    ∀ (p : DiscPage) (st : List (Int × Nat)),
      procPage pid st p = (pageCands pid p).foldl bump st := by
  intro p
  induction p with
  | nil => intro st; rfl
  | cons m rest ih =>
    intro st
    have h1 : pageCands pid (m :: rest) = matchCands pid m ++ pageCands pid rest := by
      simp [pageCands]
    rw [h1, List.foldl_append]
    unfold procPage at ih ⊢
    rw [List.foldl_cons, ih, procMatch_eq]

theorem discoverLoop_eq (pid t : Int) :
    ∀ (pages : List DiscPage) (st : List (Int × Nat)),
      discoverLoop pid t st pages = (observedLoop pid t pages).foldl bump st := by
  intro pages
  induction pages with
  | nil => intro st; rfl
  | cons p rest ih =>
    intro st
    unfold discoverLoop observedLoop
    cases hemp : p.isEmpty with
    | true => simp
    | false =>
      simp only [Bool.false_eq_true, if_false]
      by_cases hshort : (p.length : Int) < t
      · rw [if_pos hshort, if_pos hshort, List.foldl_append, procPage_eq]
        rfl
      · rw [if_neg hshort, if_neg hshort, List.foldl_append, procPage_eq, ih]

/-- Claim C9: the candidate list `_discover_matches` returns contains each
account id at most once (the keys are pairwise distinct), every listed id is
positive and different from the queried player, each listed count equals the
total number of match participations observed for that id across all fetched
pages, and every observed candidate id does appear in the list. -/
theorem discover_candidates_correct :
    ∀ (pid take : Int) (pages : List DiscPage),
      ((discoverMatches pid take pages).map Prod.fst).Nodup ∧
      (∀ e ∈ discoverMatches pid take pages,
        0 < e.1 ∧ e.1 ≠ pid ∧ e.2 = (observedCands pid take pages).count e.1) ∧
      (∀ c ∈ observedCands pid take pages,
        c ∈ (discoverMatches pid take pages).map Prod.fst) := by
  intro pid take pages
  have hbridge : discoverMatches pid take pages =
      (observedCands pid take pages).foldl bump [] :=
    discoverLoop_eq pid (max 1 take) pages []
  have hnodup : ((discoverMatches pid take pages).map Prod.fst).Nodup := by
    rw [hbridge]
    exact nodup_keys_foldl_bump _ [] (by simp)
  refine ⟨hnodup, ?_, ?_⟩
  · intro e he
    have hkey : e.1 ∈ (discoverMatches pid take pages).map Prod.fst :=
      List.mem_map_of_mem Prod.fst he
    have hobs : e.1 ∈ observedCands pid take pages := by
      rw [hbridge] at hkey
      rcases (mem_keys_foldl_bump _ [] e.1).mp hkey with h | h
      · simp at h
      · exact h
    have hvalid := mem_observedLoop_valid pid (max 1 take) pages e.1 hobs
    have hcount : lookupCount ((observedCands pid take pages).foldl bump []) e.1 =
        (observedCands pid take pages).count e.1 := by
      rw [lookupCount_foldl_bump]
      simp [lookupCount]
    have hlook : lookupCount ((observedCands pid take pages).foldl bump []) e.1 = e.2 := by
      refine lookupCount_of_mem _ e.1 e.2 ?_ ?_
      · exact nodup_keys_foldl_bump _ [] (by simp)
      · rw [← hbridge]
        exact he
    exact ⟨hvalid.1, hvalid.2, by rw [← hcount, hlook]⟩
  · intro c hc
    rw [hbridge]
    exact (mem_keys_foldl_bump _ [] c).mpr (Or.inr hc)

/-- Witness for C9: on the fixture page (participants 1, 2, junk, 0, the
player 7 itself, and 1 again) the result keys are distinct and the entry
(1, 2) is valid with count 2 as observed. -/
theorem discover_candidates_correct_witness :
    ((discoverMatches 7 100 exPages).map Prod.fst).Nodup ∧
    (0 < (1 : Int) ∧ (1 : Int) ≠ 7 ∧
      (2 : Nat) = (observedCands 7 100 exPages).count 1) := by
  have h := discover_candidates_correct 7 100 exPages
  exact ⟨h.1, h.2.1 (1, 2) (by decide)⟩

end Stratz
